import Mathlib

/-!
Verification of the PrepHires scoring engine (src/scoring.py).

Strings are modelled as lists of characters.  Python float arithmetic is
modelled by exact rational arithmetic, and the built-in `round` (round half
to even) by `pyRound`.  Every operation of scoring.py is translated
directly: `clean`, `keyword_analysis`, `section_score`, `overall_from_subs`
and `score_profile`.
-/

set_option maxHeartbeats 2000000

namespace PrepHires

/-- The whitespace characters matched by the regex `\s` of
`re.sub(r"\s+", " ", txt)` (ASCII fragment). -/
def pySpace (c : Char) : Bool :=
  c = ' ' || c = '\t' || c = '\n' || c = '\r' || c = '\x0b' || c = '\x0c'

/-- Emit the (reversed) accumulator of a word scanner as a finished word. -/
def flushAcc (acc : List Char) : List (List Char) :=
  if acc = [] then [] else [acc.reverse]

/-- Scanner splitting a character list into maximal whitespace-free words. -/
def wordsAux : List Char → List Char → List (List Char)
  | [], acc => flushAcc acc
  | c :: cs, acc =>
      if pySpace c then flushAcc acc ++ wordsAux cs []
      else wordsAux cs (c :: acc)

/-- Join words with single spaces. -/
def joinWords : List (List Char) → List Char
  | [] => []
  | [w] => w
  | w :: x :: ws => w ++ ' ' :: joinWords (x :: ws)

/-- Function `clean(txt)` of scoring.py: `re.sub(r"\s+", " ", txt).strip()`, i.e.
collapse whitespace runs to single spaces and trim the ends. -/
def clean (s : List Char) : List Char :=
  joinWords (wordsAux s [])

/-- Python `str.lower()` (ASCII fragment). -/
def lower (s : List Char) : List Char :=
  s.map Char.toLower

/-- Does the first list occur at the very start of the second? -/
def leadsWith : List Char → List Char → Bool
  | [], _ => true
  | _ :: _, [] => false
  | a :: as, b :: bs => a = b && leadsWith as bs

/-- Python substring containment `w in s`: `w` occurs contiguously in `s`. -/
def occursIn (w : List Char) : List Char → Bool
  | [] => w.isEmpty
  | c :: rest => leadsWith w (c :: rest) || occursIn w rest

/-- Python string comparison: lexicographic by code point. -/
def strLt : List Char → List Char → Bool
  | [], [] => false
  | [], _ :: _ => true
  | _ :: _, [] => false
  | a :: as, b :: bs => a.val < b.val || (a = b && strLt as bs)

/-- Non-strict variant of `strLt`. -/
def strLe (a b : List Char) : Bool := !(strLt b a)

/-- Insert a string into a sorted list of strings. -/
def insertStr (x : List Char) : List (List Char) → List (List Char)
  | [] => [x]
  | y :: ys => if strLe x y then x :: y :: ys else y :: insertStr x ys

/-- Python `sorted` on a list of distinct strings (insertion sort; for a
strict total order the ascending arrangement is unique). -/
def sortStrs : List (List Char) → List (List Char)
  | [] => []
  | x :: xs => insertStr x (sortStrs xs)

/-- Python 3 `round`: round half to even, as a function on exact rationals. -/
def pyRound (q : ℚ) : ℤ :=
  if q - ⌊q⌋ < 1 / 2 then ⌊q⌋
  else if 1 / 2 < q - ⌊q⌋ then ⌊q⌋ + 1
  else if 2 ∣ ⌊q⌋ then ⌊q⌋ else ⌊q⌋ + 1

/-- Integer-arithmetic form of `pyRound (a / b)`; used to evaluate
concrete instances, related to `pyRound` by `pyRound_intCast_div`. -/
def pyRoundFrac (a : ℤ) (b : ℕ) : ℤ :=
  let f := a / (b : ℤ)
  let r := a % (b : ℤ)
  if 2 * r < (b : ℤ) then f
  else if (b : ℤ) < 2 * r then f + 1
  else if 2 ∣ f then f else f + 1

/-- The list `GLOBAL_KEYWORDS` of scoring.py. -/
def GLOBAL_KEYWORDS : List (List Char) :=
  ["leadership".toList, "team".toList, "strategy".toList, "growth".toList,
   "product".toList, "sales".toList, "marketing".toList,
   "innovation".toList, "ai".toList, "data".toList, "analysis".toList,
   "management".toList, "customer".toList, "results".toList,
   "experience".toList, "expert".toList, "stakeholder".toList,
   "project".toList, "revenue".toList, "kpi".toList, "okr".toList,
   "python".toList, "sql".toList, "excel".toList, "communication".toList,
   "collaboration".toList, "problem solving".toList]

/-- Result dictionary of `keyword_analysis`. -/
structure KwResult where
  score : ℤ
  found : List (List Char)
  total : ℕ
deriving DecidableEq, Repr

/-- The expression `sorted(\x7bk for k in GLOBAL_KEYWORDS if k in low\x7d)`: the full (untruncated)
sorted list of bank keywords occurring in the lowered text. -/
def foundAll (text : List Char) : List (List Char) :=
  sortStrs ((GLOBAL_KEYWORDS.filter (fun k => occursIn k (lower text))).dedup)

/-- Function `keyword_analysis(text)` of scoring.py. -/
def keyword_analysis (text : List Char) : KwResult :=
  let found := foundAll text
  let score : ℤ :=
    if GLOBAL_KEYWORDS.isEmpty then 0
    else pyRound (100 * (found.length : ℚ) / (GLOBAL_KEYWORDS.length : ℚ))
  ⟨score, found.take 10, GLOBAL_KEYWORDS.length⟩

/-- The fixed signal-word list of `section_score`. -/
def SIGNAL_WORDS : List (List Char) :=
  ["lead".toList, "deliver".toList, "improve".toList, "increase".toList,
   "optimize".toList, "achieve".toList, "reduced".toList, "built".toList,
   "launched".toList, "managed".toList, "results".toList]

/-- The count `signals = sum(w in t.lower() for w in [...])` applied to an already
cleaned text `t`: the number of signal words present as substrings. -/
def sigCountClean (t : List Char) : ℕ :=
  SIGNAL_WORDS.countP (fun w => occursIn w (lower t))

/-- The ratio `coverage = min(1.0, L / (min_len * 4))` of `section_score`. -/
def covOf (text : List Char) (min_len : ℕ) : ℚ :=
  min 1 (((clean text).length : ℚ) / ((min_len : ℚ) * 4))

/-- The ratio `signal_ratio = min(1.0, signals / 5.0)` of `section_score`. -/
def sigRatioOf (text : List Char) : ℚ :=
  min 1 ((sigCountClean (clean text) : ℚ) / 5)

/-- Function `section_score(text, min_len)` of scoring.py. -/
def section_score (text : List Char) (min_len : ℕ) : ℤ :=
  if clean text = [] then 0
  else max 0 (min 100 (pyRound (60 * covOf text min_len + 40 * sigRatioOf text)))

/-- The term `bonus = min(5, kw_bonus/10)` of `overall_from_subs`. -/
def bonusOf (kw : ℤ) : ℚ :=
  min 5 ((kw : ℚ) / 10)

/-- Function `overall_from_subs(subs, kw_bonus)` of scoring.py, with the four weighted
entries of the sub-score dictionary passed positionally
(headline 0.25, about 0.25, experience 0.35, skills 0.15). -/
def overall_from_subs (h a e s : ℤ) (kw : ℤ) : ℤ :=
  let base : ℚ := (h : ℚ) * 0.25 + (a : ℚ) * 0.25 + (e : ℚ) * 0.35 + (s : ℚ) * 0.15
  max 0 (min 100 (pyRound (base + bonusOf kw)))

/-- The per-section sub-score dictionary of the report. -/
structure SubScores where
  headline : ℤ
  about : ℤ
  experience : ℤ
  skills : ℤ
deriving DecidableEq, Repr

/-- Input mapping of slot names to texts; `none` models an absent key
(`fields.get(k, "")` then yields the empty string). -/
structure ProfileFields where
  headline : Option (List Char)
  about : Option (List Char)
  experience : Option (List Char)
  education : Option (List Char)
  skills : Option (List Char)
  certs : Option (List Char)
  recommendations : Option (List Char)
deriving DecidableEq, Repr

/-- The score report returned by `score_profile`. -/
structure Report where
  overall_score : ℤ
  sub_scores : SubScores
  keyword_analysis : KwResult
  version : List Char
deriving DecidableEq, Repr

/-- Function `score_profile(fields)` of scoring.py. -/
def score_profile (fields : ProfileFields) : Report :=
  let headline := fields.headline.getD []
  let about := fields.about.getD []
  let experience := fields.experience.getD []
  let skills := fields.skills.getD []
  let sub_scores : SubScores :=
    ⟨section_score headline 20, section_score about 80,
     section_score experience 120, section_score skills 10⟩
  let all_text := headline ++ ' ' :: about ++ ' ' :: experience ++ ' ' :: skills
  let kw := keyword_analysis all_text
  let overall := overall_from_subs sub_scores.headline sub_scores.about
    sub_scores.experience sub_scores.skills kw.score
  ⟨overall, sub_scores, kw, "0.2.1".toList⟩

/-- Replace each absent slot among headline/about/experience/skills by the
empty string, leaving present slots unchanged. -/
def fillEmpty (f : ProfileFields) : ProfileFields :=
  ⟨some (f.headline.getD []), some (f.about.getD []),
   some (f.experience.getD []), f.education,
   some (f.skills.getD []), f.certs, f.recommendations⟩

/-- Append a list of words to a text, each separated by a single space. -/
def appendWords (t : List Char) (ws : List (List Char)) : List Char :=
  ws.foldl (fun acc w => acc ++ ' ' :: w) t

/-! ### Properties of `pyRound` -/

theorem le_pyRound (q : ℚ) : ⌊q⌋ ≤ pyRound q := by
  unfold pyRound; split_ifs <;> omega

theorem pyRound_le (q : ℚ) : pyRound q ≤ ⌊q⌋ + 1 := by
  unfold pyRound; split_ifs <;> omega

theorem pyRound_mono {q r : ℚ} (h : q ≤ r) : pyRound q ≤ pyRound r := by
  rcases lt_or_le ⌊q⌋ ⌊r⌋ with hf | hf
  · have h1 := pyRound_le q
    have h2 := le_pyRound r
    omega
  · have hf3 : ⌊q⌋ = ⌊r⌋ := le_antisymm (Int.floor_le_floor h) hf
    have hqr : q - (⌊r⌋ : ℚ) ≤ r - (⌊r⌋ : ℚ) := by linarith
    unfold pyRound
    rw [hf3]
    split_ifs <;> first | rfl | omega | linarith

theorem pyRound_nonneg {q : ℚ} (h : 0 ≤ q) : 0 ≤ pyRound q := by
  have h1 := le_pyRound q
  have h2 : 0 ≤ ⌊q⌋ := Int.le_floor.mpr (by exact_mod_cast h)
  omega

theorem pyRound_le_of_le_int {q : ℚ} {n : ℤ} (h : q ≤ (n : ℚ)) : pyRound q ≤ n := by
  have hfl : ⌊q⌋ ≤ n := by
    have := Int.floor_le_floor h
    rwa [Int.floor_intCast] at this
  rcases lt_or_eq_of_le hfl with hlt | heq
  · have := pyRound_le q
    omega
  · have hq : q - (⌊q⌋ : ℚ) < 1 / 2 := by
      have : (⌊q⌋ : ℚ) = (n : ℚ) := by exact_mod_cast heq
      linarith
    unfold pyRound
    rw [if_pos hq]
    exact hfl

/-- Bridge between the rational-valued `pyRound` applied to an integer
fraction and the integer-only `pyRoundFrac`. -/
theorem pyRound_intCast_div (a : ℤ) (b : ℕ) (hb : 0 < b) :
    pyRound ((a : ℚ) / (b : ℚ)) = pyRoundFrac a b := by
  have hbq : (0 : ℚ) < (b : ℚ) := by exact_mod_cast hb
  have hbz : (b : ℚ) ≠ 0 := ne_of_gt hbq
  have hfl : ⌊(a : ℚ) / (b : ℚ)⌋ = a / (b : ℤ) := Rat.floor_intCast_div_natCast a b
  have hfr : (a : ℚ) / (b : ℚ) - ((a / (b : ℤ) : ℤ) : ℚ) = ((a % (b : ℤ) : ℤ) : ℚ) / (b : ℚ) := by
    rw [Int.emod_def]
    push_cast
    field_simp
  have h1 : ((a : ℚ) / (b : ℚ) - ((a / (b : ℤ) : ℤ) : ℚ) < 1 / 2) ↔ (2 * (a % (b : ℤ)) < (b : ℤ)) := by
    rw [hfr, div_lt_div_iff₀ hbq (by norm_num : (0 : ℚ) < 2)]
    norm_cast
    omega
  have h2 : (1 / 2 < (a : ℚ) / (b : ℚ) - ((a / (b : ℤ) : ℤ) : ℚ)) ↔ ((b : ℤ) < 2 * (a % (b : ℤ))) := by
    rw [hfr, div_lt_div_iff₀ (by norm_num : (0 : ℚ) < 2) hbq]
    norm_cast
    omega
  unfold pyRound pyRoundFrac
  rw [hfl]
  simp only [h1, h2]

/-! ### Integer-arithmetic evaluation of the scoring functions -/

theorem covOf_eq (text : List Char) (m : ℕ) (hm : 0 < m) :
    covOf text m = ((min (4 * m) (clean text).length : ℕ) : ℚ) / ((m : ℚ) * 4) := by
  have hmq : (0 : ℚ) < (m : ℚ) := by exact_mod_cast hm
  have hm4 : (0 : ℚ) < (m : ℚ) * 4 := by linarith
  unfold covOf
  rcases le_total ((clean text).length) (4 * m) with h | h
  · rw [Nat.min_eq_right h]
    refine min_eq_right ((div_le_one hm4).mpr ?_)
    have : (((clean text).length : ℕ) : ℚ) ≤ ((4 * m : ℕ) : ℚ) := by exact_mod_cast h
    push_cast at this
    linarith
  · rw [Nat.min_eq_left h]
    have h1 : (1 : ℚ) ≤ ((clean text).length : ℚ) / ((m : ℚ) * 4) := by
      refine (one_le_div hm4).mpr ?_
      have : ((4 * m : ℕ) : ℚ) ≤ (((clean text).length : ℕ) : ℚ) := by exact_mod_cast h
      push_cast at this
      linarith
    rw [min_eq_left h1]
    push_cast
    field_simp
    ring

theorem sigRatio_eq (text : List Char) :
    sigRatioOf text = ((min 5 (sigCountClean (clean text)) : ℕ) : ℚ) / 5 := by
  unfold sigRatioOf
  rcases le_total (sigCountClean (clean text)) 5 with h | h
  · rw [Nat.min_eq_right h]
    refine min_eq_right ((div_le_one (by norm_num)).mpr ?_)
    exact_mod_cast h
  · rw [Nat.min_eq_left h]
    have h1 : (1 : ℚ) ≤ (sigCountClean (clean text) : ℚ) / 5 := by
      refine (one_le_div (by norm_num)).mpr ?_
      exact_mod_cast h
    rw [min_eq_left h1]
    norm_num

theorem section_score_eval (text : List Char) (m : ℕ) (hm : 0 < m) :
    section_score text m =
      if clean text = [] then 0
      else max 0 (min 100 (pyRoundFrac
        ((15 * min (4 * m) (clean text).length
          + 8 * (m * min 5 (sigCountClean (clean text))) : ℕ) : ℤ) m)) := by
  unfold section_score
  by_cases hc : clean text = []
  · rw [if_pos hc, if_pos hc]
  · rw [if_neg hc, if_neg hc]
    have hmq : (0 : ℚ) < (m : ℚ) := by exact_mod_cast hm
    have harg : 60 * covOf text m + 40 * sigRatioOf text =
        (((15 * min (4 * m) (clean text).length
          + 8 * (m * min 5 (sigCountClean (clean text))) : ℕ) : ℤ) : ℚ) / ((m : ℕ) : ℚ) := by
      rw [covOf_eq text m hm, sigRatio_eq text]
      push_cast
      field_simp
      ring
    rw [harg, pyRound_intCast_div _ _ hm]

theorem bonusOf_eq (k : ℤ) : bonusOf k = ((min 50 k : ℤ) : ℚ) / 10 := by
  unfold bonusOf
  rcases le_total k 50 with h | h
  · rw [min_eq_right h]
    refine min_eq_right ((div_le_iff₀ (by norm_num)).mpr ?_)
    have : (k : ℚ) ≤ ((50 : ℤ) : ℚ) := by exact_mod_cast h
    push_cast at this
    linarith
  · rw [min_eq_left h]
    have h1 : (5 : ℚ) ≤ (k : ℚ) / 10 := by
      rw [le_div_iff₀ (by norm_num)]
      have : ((50 : ℤ) : ℚ) ≤ (k : ℚ) := by exact_mod_cast h
      push_cast at this
      linarith
    rw [min_eq_left h1]
    norm_num

theorem overall_eval (h a e s k : ℤ) :
    overall_from_subs h a e s k =
      max 0 (min 100 (pyRoundFrac (5 * h + 5 * a + 7 * e + 3 * s + 2 * min 50 k) 20)) := by
  have harg : (h : ℚ) * 0.25 + (a : ℚ) * 0.25 + (e : ℚ) * 0.35 + (s : ℚ) * 0.15 + bonusOf k =
      (((5 * h + 5 * a + 7 * e + 3 * s + 2 * min 50 k : ℤ)) : ℚ) / ((20 : ℕ) : ℚ) := by
    rw [bonusOf_eq]
    push_cast
    norm_num
    ring
  simp only [overall_from_subs, harg]
  rw [pyRound_intCast_div _ _ (by norm_num : 0 < (20 : ℕ))]

theorem kw_score_eq (text : List Char) :
    (keyword_analysis text).score = pyRoundFrac (100 * ((foundAll text).length : ℤ)) 27 := by
  unfold keyword_analysis
  have hne : GLOBAL_KEYWORDS.isEmpty = false := rfl
  have hlen : GLOBAL_KEYWORDS.length = 27 := rfl
  simp only [hne, Bool.false_eq_true, if_false, hlen]
  have harg : 100 * ((foundAll text).length : ℚ) / ((27 : ℕ) : ℚ) =
      ((100 * ((foundAll text).length : ℤ) : ℤ) : ℚ) / ((27 : ℕ) : ℚ) := by
    push_cast
    ring
  rw [harg]
  exact pyRound_intCast_div _ _ (by norm_num)

/-! ### Appending text extends the cleaned text -/

theorem wordsAux_append_space (u : List Char) :
    ∀ (t acc : List Char), wordsAux (t ++ ' ' :: u) acc = wordsAux t acc ++ wordsAux u [] := by
  intro t
  induction t with
  | nil =>
    intro acc
    simp [wordsAux, pySpace]
  | cons c cs ih =>
    intro acc
    simp only [List.cons_append, wordsAux]
    by_cases hc : pySpace c
    · simp [hc, ih, List.append_assoc]
    · simp [hc, ih]

theorem joinWords_append_ex (a b : List (List Char)) :
    ∃ v, joinWords (a ++ b) = joinWords a ++ v := by
  induction a with
  | nil => exact ⟨joinWords b, by simp [joinWords]⟩
  | cons w rest ih =>
    rcases rest with _ | ⟨x, rs⟩
    · rcases b with _ | ⟨y, ys⟩
      · exact ⟨[], by simp [joinWords]⟩
      · exact ⟨' ' :: joinWords (y :: ys), by simp [joinWords]⟩
    · obtain ⟨v, hv⟩ := ih
      refine ⟨v, ?_⟩
      rw [List.cons_append] at hv
      rw [List.cons_append, List.cons_append]
      show w ++ ' ' :: joinWords (x :: (rs ++ b)) = (w ++ ' ' :: joinWords (x :: rs)) ++ v
      rw [hv]
      simp

theorem clean_append_ex (t u : List Char) :
    ∃ v, clean (t ++ ' ' :: u) = clean t ++ v := by
  unfold clean
  rw [wordsAux_append_space]
  exact joinWords_append_ex _ _

/-! ### Substring occurrences are preserved by appending -/

theorem leadsWith_append (w : List Char) :
    ∀ (t v : List Char), leadsWith w t = true → leadsWith w (t ++ v) = true := by
  induction w with
  | nil => intro t v _; simp [leadsWith]
  | cons a as ih =>
    intro t v h
    cases t with
    | nil => simp [leadsWith] at h
    | cons b bs =>
      simp only [leadsWith, Bool.and_eq_true, decide_eq_true_eq] at h
      simp only [List.cons_append, leadsWith, Bool.and_eq_true, decide_eq_true_eq]
      exact ⟨h.1, ih bs v h.2⟩

theorem occursIn_nil (s : List Char) : occursIn [] s = true := by
  cases s <;> simp [occursIn, leadsWith]

theorem occursIn_append (w t v : List Char) (h : occursIn w t = true) :
    occursIn w (t ++ v) = true := by
  induction t with
  | nil =>
    simp only [occursIn, List.isEmpty_iff] at h
    subst h
    simpa using occursIn_nil v
  | cons c cs ih =>
    simp only [occursIn, Bool.or_eq_true] at h
    simp only [List.cons_append, occursIn, Bool.or_eq_true]
    rcases h with h | h
    · exact Or.inl (leadsWith_append w (c :: cs) v h)
    · exact Or.inr (ih h)

theorem sigCountClean_append (t v : List Char) :
    sigCountClean t ≤ sigCountClean (t ++ v) := by
  unfold sigCountClean
  apply List.countP_mono_left
  intro w _ hp
  show occursIn w (lower (t ++ v)) = true
  rw [lower, List.map_append]
  exact occursIn_append w (lower t) (lower v) hp

/-! ### Range and monotonicity of the scores -/

theorem section_score_bounds (text : List Char) (m : ℕ) :
    0 ≤ section_score text m ∧ section_score text m ≤ 100 := by
  unfold section_score
  split_ifs <;> omega

theorem overall_from_subs_bounds (h a e s k : ℤ) :
    0 ≤ overall_from_subs h a e s k ∧ overall_from_subs h a e s k ≤ 100 := by
  simp only [overall_from_subs]
  omega

theorem length_insertStr (x : List Char) (l : List (List Char)) :
    (insertStr x l).length = l.length + 1 := by
  induction l with
  | nil => rfl
  | cons y ys ih =>
    unfold insertStr
    split_ifs <;> simp [ih]

theorem length_sortStrs (l : List (List Char)) : (sortStrs l).length = l.length := by
  induction l with
  | nil => rfl
  | cons x xs ih => simp [sortStrs, length_insertStr, ih]

theorem foundAll_length_le (text : List Char) : (foundAll text).length ≤ 27 := by
  unfold foundAll
  rw [length_sortStrs]
  calc ((GLOBAL_KEYWORDS.filter (fun k => occursIn k (lower text))).dedup).length
      ≤ (GLOBAL_KEYWORDS.filter (fun k => occursIn k (lower text))).length :=
        List.Sublist.length_le (List.dedup_sublist _)
    _ ≤ GLOBAL_KEYWORDS.length := List.length_filter_le _ _
    _ = 27 := rfl

theorem kw_score_bounds (text : List Char) :
    0 ≤ (keyword_analysis text).score ∧ (keyword_analysis text).score ≤ 100 := by
  have hlen := foundAll_length_le text
  rw [kw_score_eq]
  have h27 : (0 : ℕ) < 27 := by norm_num
  rw [← pyRound_intCast_div _ 27 h27]
  constructor
  · apply pyRound_nonneg
    positivity
  · apply pyRound_le_of_le_int
    rw [div_le_iff₀ (by norm_num : (0 : ℚ) < ((27 : ℕ) : ℚ))]
    push_cast
    have : ((foundAll text).length : ℚ) ≤ 27 := by exact_mod_cast hlen
    linarith

theorem section_score_append_ge (t u : List Char) (m : ℕ) :
    section_score t m ≤ section_score (t ++ ' ' :: u) m := by
  by_cases hc : clean t = []
  · rw [section_score, if_pos hc]
    exact (section_score_bounds (t ++ ' ' :: u) m).1
  · obtain ⟨v, hv⟩ := clean_append_ex t u
    have hc2 : ¬ clean (t ++ ' ' :: u) = [] := by
      rw [hv]
      intro hnil
      exact hc (List.append_eq_nil.mp hnil).1
    rw [section_score, section_score, if_neg hc, if_neg hc2]
    have hlen : (clean t).length ≤ (clean (t ++ ' ' :: u)).length := by
      rw [hv]; simp
    have hsig : sigCountClean (clean t) ≤ sigCountClean (clean (t ++ ' ' :: u)) := by
      rw [hv]; exact sigCountClean_append _ _
    have hcov : covOf t m ≤ covOf (t ++ ' ' :: u) m := by
      unfold covOf
      rcases Nat.eq_zero_or_pos m with hm | hm
      · subst hm
        norm_num
      · refine min_le_min le_rfl ?_
        have hm4 : (0 : ℚ) < (m : ℚ) * 4 := by
          have : (0 : ℚ) < (m : ℚ) := by exact_mod_cast hm
          linarith
        exact (div_le_div_iff_of_pos_right hm4).mpr (by exact_mod_cast hlen)
    have hsr : sigRatioOf t ≤ sigRatioOf (t ++ ' ' :: u) := by
      unfold sigRatioOf
      refine min_le_min le_rfl ?_
      exact (div_le_div_iff_of_pos_right (by norm_num)).mpr (by exact_mod_cast hsig)
    have hraw := pyRound_mono (by linarith :
      60 * covOf t m + 40 * sigRatioOf t ≤
        60 * covOf (t ++ ' ' :: u) m + 40 * sigRatioOf (t ++ ' ' :: u))
    omega

theorem section_score_appendWords_ge (t : List Char) (m : ℕ) (ws : List (List Char)) :
    section_score t m ≤ section_score (appendWords t ws) m := by
  induction ws generalizing t with
  | nil => simp [appendWords]
  | cons w rest ih =>
    have h1 := section_score_append_ge t w m
    have h2 := ih (t ++ ' ' :: w)
    have h3 : appendWords t (w :: rest) = appendWords (t ++ ' ' :: w) rest := rfl
    rw [h3]
    omega

/-! ### Concrete inputs used by the claims -/

/-- The all-empty input mapping of the specification example: the four
weighted slots present and empty, the others absent. -/
def allEmptyFields : ProfileFields :=
  ⟨some [], some [], some [], none, some [], none, none⟩

/-- A profile whose only text lives in the `education` slot. -/
def eduOnlyFields : ProfileFields :=
  ⟨none, none, none, some ("python".toList), none, none, none⟩

/-- A profile whose `about` slot is the single word "training". -/
def trainFields : ProfileFields :=
  ⟨none, some ("training".toList), none, none, none, none, none⟩

/-- One signal word repeated five times. -/
def leadRepeat : List Char := "lead lead lead lead lead".toList

/-- Five distinct signal words. -/
def fiveSignals : List Char := "lead deliver improve increase optimize".toList

/-- A text containing more than ten bank keywords. -/
def kwRichText : List Char :=
  "leadership team strategy growth product sales marketing innovation data analysis management customer results".toList

/-- A 40-character text, saturating coverage for minimum length 10. -/
def satText : List Char := List.replicate 40 'a'

/-! ### The claims -/

/-- C1: for every input text and minimum length the per-section sub-score of
`section_score` lies in [0,100], and for every input mapping every sub-score
and the overall score of the report of `score_profile` lie in [0,100]. -/
theorem C1_scores_in_range (text : List Char) (m : ℕ) (f : ProfileFields) :
    (0 ≤ section_score text m ∧ section_score text m ≤ 100) ∧
    (0 ≤ (score_profile f).sub_scores.headline ∧ (score_profile f).sub_scores.headline ≤ 100) ∧
    (0 ≤ (score_profile f).sub_scores.about ∧ (score_profile f).sub_scores.about ≤ 100) ∧
    (0 ≤ (score_profile f).sub_scores.experience ∧ (score_profile f).sub_scores.experience ≤ 100) ∧
    (0 ≤ (score_profile f).sub_scores.skills ∧ (score_profile f).sub_scores.skills ≤ 100) ∧
    (0 ≤ (score_profile f).overall_score ∧ (score_profile f).overall_score ≤ 100) := by
  refine ⟨section_score_bounds text m, ?_, ?_, ?_, ?_, ?_⟩
  · exact section_score_bounds _ _
  · exact section_score_bounds _ _
  · exact section_score_bounds _ _
  · exact section_score_bounds _ _
  · exact overall_from_subs_bounds _ _ _ _ _

/-- C2 counterexample: the text consisting of the signal word "lead" repeated
five times has five signal-word occurrences, yet the code counts each distinct
signal word at most once, so `signal_ratio` is 1/5 and not 1. -/
theorem C2_repeated_word_cex :
    clean leadRepeat =
      joinWords ["lead".toList, "lead".toList, "lead".toList, "lead".toList, "lead".toList] ∧
    sigCountClean (clean leadRepeat) = 1 ∧
    sigRatioOf leadRepeat ≠ 1 := by
  refine ⟨by decide, by decide, ?_⟩
  unfold sigRatioOf
  rw [show sigCountClean (clean leadRepeat) = 1 from by decide]
  norm_num

/-- C2 amended: the signal ratio counts the number of DISTINCT signal words
present (case-insensitive substring) in the cleaned text, each counted at
most once regardless of repetitions, divided by 5 and clamped at 1; five or
more distinct signal words present yield full credit. -/
theorem C2_signal_presence (text : List Char) :
    sigRatioOf text =
      min 1 (((SIGNAL_WORDS.filter (fun w => occursIn w (lower (clean text)))).length : ℚ) / 5) ∧
    (5 ≤ (SIGNAL_WORDS.filter (fun w => occursIn w (lower (clean text)))).length →
      sigRatioOf text = 1) := by
  have hcp : sigCountClean (clean text) =
      (SIGNAL_WORDS.filter (fun w => occursIn w (lower (clean text)))).length :=
    List.countP_eq_length_filter _ _
  constructor
  · unfold sigRatioOf
    rw [hcp]
  · intro h5
    unfold sigRatioOf
    rw [hcp]
    refine min_eq_left ((one_le_div (by norm_num)).mpr ?_)
    exact_mod_cast h5

/-- C2 witness: a text with five distinct signal words gets signal ratio 1. -/
theorem C2_signal_presence_witness :
    5 ≤ (SIGNAL_WORDS.filter (fun w => occursIn w (lower (clean fiveSignals)))).length ∧
    sigRatioOf fiveSignals = 1 :=
  ⟨by decide, (C2_signal_presence fiveSignals).2 (by decide)⟩

/-- C3 counterexample: "python" is a bank keyword and occurs in the education
slot, but the keyword analysis of `score_profile` reports nothing found,
because only headline/about/experience/skills are joined into the analysed
text. -/
theorem C3_education_ignored_cex :
    "python".toList ∈ GLOBAL_KEYWORDS ∧
    occursIn "python".toList (lower (eduOnlyFields.education.getD [])) = true ∧
    (score_profile eduOnlyFields).keyword_analysis.found = [] ∧
    (score_profile eduOnlyFields).keyword_analysis.score = 0 := by
  refine ⟨by decide, by decide, by decide, ?_⟩
  have h : (score_profile eduOnlyFields).keyword_analysis =
      keyword_analysis ([' ', ' ', ' ']) := rfl
  rw [h, kw_score_eq]
  decide

/-- C3 amended: the keyword analysis of the report is derived from the
space-joined concatenation of the headline, about, experience and skills
slots only; the education, certs and recommendations slots are ignored by
`score_profile` entirely. -/
theorem C3_only_four_slots_join (f : ProfileFields) (e c r : Option (List Char)) :
    score_profile ⟨f.headline, f.about, f.experience, e, f.skills, c, r⟩ = score_profile f ∧
    (score_profile f).keyword_analysis =
      keyword_analysis (f.headline.getD [] ++ ' ' :: f.about.getD [] ++ ' ' ::
        f.experience.getD [] ++ ' ' :: f.skills.getD []) :=
  ⟨rfl, rfl⟩

/-- C4: when every slot of the input mapping is the empty string,
`score_profile` returns overall score 0, every sub-score 0 and keyword
score 0. -/
theorem C4_all_empty_zero :
    (score_profile allEmptyFields).overall_score = 0 ∧
    (score_profile allEmptyFields).sub_scores = ⟨0, 0, 0, 0⟩ ∧
    (score_profile allEmptyFields).keyword_analysis.score = 0 := by
  have hkw : (score_profile allEmptyFields).keyword_analysis.score = 0 := by
    have h : (score_profile allEmptyFields).keyword_analysis =
        keyword_analysis ([' ', ' ', ' ']) := rfl
    rw [h, kw_score_eq]
    decide
  refine ⟨?_, by decide, hkw⟩
  have hov : (score_profile allEmptyFields).overall_score =
      overall_from_subs (section_score [] 20) (section_score [] 80)
        (section_score [] 120) (section_score [] 10)
        ((score_profile allEmptyFields).keyword_analysis.score) := rfl
  rw [hov, hkw, show section_score [] 20 = 0 from by decide,
      show section_score [] 80 = 0 from by decide,
      show section_score [] 120 = 0 from by decide,
      show section_score [] 10 = 0 from by decide, overall_eval]
  decide

/-- C5 counterexample: with sub-scores (2,0,0,0) the keyword bonus uplift is
6 points, not at most 5: base 0.5 rounds (half to even) to 0, while base
plus bonus 5.5 rounds to 6. -/
theorem C5_bonus_cap_cex :
    overall_from_subs 2 0 0 0 50 = 6 ∧
    overall_from_subs 2 0 0 0 0 = 0 ∧
    ¬(overall_from_subs 2 0 0 0 50 ≤ overall_from_subs 2 0 0 0 0 + 5) := by
  have h1 : overall_from_subs 2 0 0 0 50 = 6 := by
    rw [overall_eval]
    decide
  have h2 : overall_from_subs 2 0 0 0 0 = 0 := by
    rw [overall_eval]
    decide
  exact ⟨h1, h2, by omega⟩

/-- C5 amended: the bonus term `min 5 (k/10)` never exceeds 5, and the
keyword-coverage uplift of the overall score is at most 6 points (the sixth
point arises only at round-half-to-even ties of the final rounding). -/
theorem C5_bonus_cap_amended (h a e s k : ℤ) (hk0 : 0 ≤ k) (hk1 : k ≤ 100) :
    bonusOf k ≤ 5 ∧
    overall_from_subs h a e s k ≤ overall_from_subs h a e s 0 + 6 := by
  refine ⟨min_le_left _ _, ?_⟩
  simp only [overall_from_subs]
  have hb5 : bonusOf k ≤ 5 := min_le_left _ _
  have hb0 : bonusOf 0 = 0 := by
    unfold bonusOf
    norm_num
  set base : ℚ := (h : ℚ) * 0.25 + (a : ℚ) * 0.25 + (e : ℚ) * 0.35 + (s : ℚ) * 0.15 with hbase
  have key : pyRound (base + bonusOf k) ≤ pyRound (base + bonusOf 0) + 6 := by
    rw [hb0, add_zero]
    have h1 := pyRound_le (base + bonusOf k)
    have h2 : ⌊base + bonusOf k⌋ ≤ ⌊base + (5 : ℚ)⌋ := Int.floor_le_floor (by linarith)
    have h3 : ⌊base + (5 : ℚ)⌋ = ⌊base⌋ + 5 := by
      have h4 := Int.floor_add_int base (5 : ℤ)
      push_cast at h4
      exact_mod_cast h4
    have h5 := le_pyRound base
    omega
  omega

/-- C5 witness: at sub-scores (2,0,0,0) and keyword score 50 the amended
bound holds. -/
theorem C5_bonus_cap_amended_witness :
    (0 : ℤ) ≤ 50 ∧ (50 : ℤ) ≤ 100 ∧ bonusOf 50 ≤ 5 ∧
    overall_from_subs 2 0 0 0 50 ≤ overall_from_subs 2 0 0 0 0 + 6 := by
  have h := C5_bonus_cap_amended 2 0 0 0 50 (by norm_num) (by norm_num)
  exact ⟨by norm_num, by norm_num, h.1, h.2⟩

/-- C6: appending additional signal words from the fixed signal-word set,
separated by whitespace, to a section text never decreases the section
score. -/
theorem C6_append_signal_words_mono (t : List Char) (m : ℕ) (ws : List (List Char))
    (hws : ∀ w ∈ ws, w ∈ SIGNAL_WORDS) :
    section_score t m ≤ section_score (appendWords t ws) m :=
  section_score_appendWords_ge t m ws

/-- C6 witness: appending the signal word "lead" to a concrete text does not
decrease its section score. -/
theorem C6_append_signal_words_mono_witness :
    (∀ w ∈ ["lead".toList], w ∈ SIGNAL_WORDS) ∧
    section_score ("built the data pipeline".toList) 40 ≤
      section_score (appendWords ("built the data pipeline".toList) ["lead".toList]) 40 :=
  ⟨by decide, C6_append_signal_words_mono ("built the data pipeline".toList) 40
    ["lead".toList] (by decide)⟩

/-- C7: any two texts whose cleaned lengths both reach four times the
(positive) minimum length have coverage component exactly 1, and if they
contain the same signal-word occurrences their section scores coincide:
length beyond saturation never changes the score. -/
theorem C7_coverage_saturation (t1 t2 : List Char) (m : ℕ) (hm : 0 < m)
    (h1 : 4 * m ≤ (clean t1).length) (h2 : 4 * m ≤ (clean t2).length)
    (hsig : ∀ w ∈ SIGNAL_WORDS,
      occursIn w (lower (clean t1)) = occursIn w (lower (clean t2))) :
    covOf t1 m = 1 ∧ covOf t2 m = 1 ∧ section_score t1 m = section_score t2 m := by
  have hmq : (0 : ℚ) < (m : ℚ) := by exact_mod_cast hm
  have hm4 : (0 : ℚ) < (m : ℚ) * 4 := by linarith
  have hcov : ∀ t : List Char, 4 * m ≤ (clean t).length → covOf t m = 1 := by
    intro t ht
    unfold covOf
    refine min_eq_left ((one_le_div hm4).mpr ?_)
    have hc : ((4 * m : ℕ) : ℚ) ≤ ((clean t).length : ℚ) := by exact_mod_cast ht
    push_cast at hc
    linarith
  have hc1 := hcov t1 h1
  have hc2 := hcov t2 h2
  have hne1 : ¬ clean t1 = [] := by
    intro hnil
    rw [hnil] at h1
    simp at h1
    omega
  have hne2 : ¬ clean t2 = [] := by
    intro hnil
    rw [hnil] at h2
    simp at h2
    omega
  have hcnt : sigCountClean (clean t1) = sigCountClean (clean t2) := by
    unfold sigCountClean
    apply List.countP_congr
    intro w hw
    rw [hsig w hw]
  have hsr : sigRatioOf t1 = sigRatioOf t2 := by
    unfold sigRatioOf
    rw [hcnt]
  refine ⟨hc1, hc2, ?_⟩
  rw [section_score, section_score, if_neg hne1, if_neg hne2, hc1, hc2, hsr]

/-- C7 witness: a 40-character text saturates coverage at minimum length 10. -/
theorem C7_coverage_saturation_witness :
    (0 : ℕ) < 10 ∧ 4 * 10 ≤ (clean satText).length ∧
    (covOf satText 10 = 1 ∧ covOf satText 10 = 1 ∧
      section_score satText 10 = section_score satText 10) :=
  ⟨by norm_num, by decide,
    C7_coverage_saturation satText satText 10 (by norm_num) (by decide) (by decide)
      (fun _ _ => rfl)⟩

/-- C8: the displayed found list is the first 10 entries of the full sorted
found list, total is always the full bank size 27, and the score is computed
from the untruncated number of matched keywords. -/
theorem C8_truncation (text : List Char) (h10 : 10 < (foundAll text).length) :
    (keyword_analysis text).total = 27 ∧
    (keyword_analysis text).found = (foundAll text).take 10 ∧
    (keyword_analysis text).found.length = 10 ∧
    (keyword_analysis text).score = pyRoundFrac (100 * ((foundAll text).length : ℤ)) 27 := by
  refine ⟨rfl, rfl, ?_, kw_score_eq text⟩
  show ((foundAll text).take 10).length = 10
  rw [List.length_take]
  omega

/-- C8 witness: a text matching 13 bank keywords displays 10 of them while
its score is computed from all 13. -/
theorem C8_truncation_witness :
    10 < (foundAll kwRichText).length ∧
    (keyword_analysis kwRichText).total = 27 ∧
    (keyword_analysis kwRichText).found.length = 10 ∧
    (keyword_analysis kwRichText).score = pyRoundFrac 1300 27 := by
  have h := C8_truncation kwRichText (by decide)
  refine ⟨by decide, h.1, h.2.2.1, ?_⟩
  rw [h.2.2.2, show (foundAll kwRichText).length = 13 from by decide]
  norm_num

/-- C9: `score_profile` is total, treats each absent slot among
headline/about/experience/skills as the empty string, and always returns a
well-formed report (scores in range, total the bank size, fixed version). -/
theorem C9_total_missing_default (f : ProfileFields) :
    score_profile f = score_profile (fillEmpty f) ∧
    (0 ≤ (score_profile f).overall_score ∧ (score_profile f).overall_score ≤ 100) ∧
    (0 ≤ (score_profile f).keyword_analysis.score ∧
      (score_profile f).keyword_analysis.score ≤ 100) ∧
    (score_profile f).keyword_analysis.total = 27 ∧
    (score_profile f).version = "0.2.1".toList := by
  refine ⟨rfl, ?_, ?_, rfl, rfl⟩
  · exact overall_from_subs_bounds _ _ _ _ _
  · exact kw_score_bounds _

/-- C10: keyword matching is raw substring matching on the lowered combined
text: an about slot equal to "training" is reported as containing the bank
keyword "ai" and receives a strictly positive keyword score. -/
theorem C10_substring_false_positive :
    "ai".toList ∈ (score_profile trainFields).keyword_analysis.found ∧
    (score_profile trainFields).keyword_analysis.found = ["ai".toList] ∧
    (score_profile trainFields).keyword_analysis.score = 4 ∧
    0 < (score_profile trainFields).keyword_analysis.score := by
  have hsc : (score_profile trainFields).keyword_analysis.score = 4 := by
    have h : (score_profile trainFields).keyword_analysis =
        keyword_analysis (' ' :: "training".toList ++ [' ', ' ']) := rfl
    rw [h, kw_score_eq]
    decide
  refine ⟨by decide, by decide, hsc, ?_⟩
  rw [hsc]
  norm_num

end PrepHires
